import Mathlib

/-! CAN message encoding: `MsgEncoding64`.

A shallow embedding of `can_msg_coding.cpp` (`MsgEncoding64`) and the properties of the
bit placement it performs.  A `uint64_t` is a natural number below `2 ^ 64`; the
`uint8_t` arguments are natural numbers; the shift counts are `int`, as the integer
promotions of C++ make them.
-/

namespace CanMsgCoding

/-! ## Shifts of a `uint64_t` -/

/-- The values a target produces for the two shifts of a `uint64_t` whose count lies outside
`[0, 63]`.  C++ gives such a shift no meaning, so the embedding fixes none: every function
of the source takes these results as a parameter. -/
structure UndefinedShift where
  /-- Result of `x << n` for a count `n` outside `[0, 63]`. -/
  shl : Nat → Int → Nat
  /-- Result of `x >> n` for a count `n` outside `[0, 63]`. -/
  shr : Nat → Int → Nat

/-- `x << n` on `uint64_t`: the low 64 bits of `x * 2 ^ n` for a count in `[0, 63]`. -/
def shl64 (u : UndefinedShift) (x : Nat) (n : Int) : Nat :=
  if 0 ≤ n ∧ n < 64 then (x <<< n.toNat) % 2 ^ 64 else u.shl x n % 2 ^ 64

/-- `x >> n` on `uint64_t`: `x / 2 ^ n` for a count in `[0, 63]`. -/
def shr64 (u : UndefinedShift) (x : Nat) (n : Int) : Nat :=
  if 0 ≤ n ∧ n < 64 then x >>> n.toNat else u.shr x n % 2 ^ 64

/-- A target that reduces the shift count modulo 64 (the x86-64 `shl`/`shr` instructions). -/
def countMod64 : UndefinedShift where
  shl x n := x <<< (n % 64).toNat
  shr x n := x >>> (n % 64).toNat

/-- A target on which a shift by an out-of-range count yields zero. -/
def shiftOut : UndefinedShift where
  shl _ _ := 0
  shr _ _ := 0

/-! ## The encoder -/

/-- The constant `bits_per_byte` of `MsgEncoding64`. -/
def bits_per_byte : Nat := 8

/-- The constant `bitmask_size` of `MsgEncoding64`. -/
def bitmask_size : Nat := 64

/-- The truncated signal, line 12: `((1ULL << bit_width) - 1) & signal`.  The subtraction is
that of `uint64_t`: it wraps around at zero. -/
def value_mask (u : UndefinedShift) (signal bit_width : Nat) : Nat :=
  ((shl64 u 1 bit_width + 2 ^ 64 - 1) % 2 ^ 64) &&& signal

/-- The shift count of lines 19-20, computed in `int` from the two `uint8_t` locals
`bit_postion_in_byte` and `byte_index` of lines 16-17. -/
def shift_count (offset i : Nat) : Int :=
  let bit_postion_in_byte : Nat := ((offset + i) % bits_per_byte) % 256
  let byte_index : Nat := ((offset + i) / bits_per_byte) % 256
  (bitmask_size : Int) - ((byte_index : Int) + 1) * (bits_per_byte : Int)
    + (bit_postion_in_byte : Int)

/-- One pass through the body of the loop, lines 15-20, for the loop index `i`. -/
def loop_body (u : UndefinedShift) (vmask offset : Nat) (msg i : Nat) : Nat :=
  let current_bit_value := shr64 u vmask i &&& 1
  msg ||| shl64 u current_bit_value (shift_count offset i)

/-- The function `MsgEncoding64`: the buffer `msg` after the call.  The loop
`for (int i = 0; i < bit_width; i++)` runs its body for `i = 0, ..., bit_width - 1`. -/
def MsgEncoding64 (u : UndefinedShift) (msg signal offset bit_width : Nat) : Nat :=
  (List.range bit_width).foldl (loop_body u (value_mask u signal bit_width) offset) msg

/-! ## The vocabulary of the specification -/

/-- The addressing scheme of the specification for `W = 64`: the position in the 64-bit
integer of the message bit numbered `p`. -/
def global_bit (p : Nat) : Nat := 64 - ((p / 8) + 1) * 8 + p % 8

/-- Byte number `k` of a buffer, byte 0 being the most significant one. -/
def byte_at (msg k : Nat) : Nat := (msg >>> (8 * (7 - k))) % 256

/-- The bit that the in-range passes of the loop OR into position `p` of the buffer: bit
`global_bit p - offset` of the truncated signal `v` when `p` is one of the 64 positions and
`global_bit p` lies in `[offset, offset + n)`, and nothing otherwise. -/
def placed (v offset n p : Nat) : Bool :=
  decide (p < 64 ∧ offset ≤ global_bit p ∧ global_bit p < offset + n)
    && v.testBit (global_bit p - offset)

/-- The errors of the specification's taxonomy. -/
inductive EncodeError where
  | PreconditionViolation
  deriving DecidableEq

/-- What the caller of `MsgEncoding64` observes.  The function is declared `void` and its
body has no `throw`, no status result, no assertion and no early `return`: every call comes
back to the caller without an error, leaving the buffer as the loop has made it.  The first
component is the error report, the second the buffer after the call. -/
def MsgEncoding64_call (u : UndefinedShift) (msg signal offset bit_width : Nat) :
    Except EncodeError Unit × Nat :=
  (Except.ok (), MsgEncoding64 u msg signal offset bit_width)

/-- Modelled from the spec: the decoder, which the repository does not contain ("if one is
added later").  It assembles the value whose bit `i`, for `i` in `[0, bit_width)`, is the
bit of the buffer at position `global_bit (offset + i)`. -/
def MsgDecoding64 (msg offset bit_width : Nat) : Nat :=
  (List.range bit_width).foldl
    (fun acc i => acc ||| (((msg >>> global_bit (offset + i)) &&& 1) <<< i)) 0

/-- The local `byte_index` of line 17: `(offset + i) / bits_per_byte`, stored in a
`uint8_t`. -/
def byte_index (offset i : Nat) : Nat := ((offset + i) / bits_per_byte) % 256

/-- The local `bit_postion_in_byte` of line 16: `(offset + i) % bits_per_byte`, stored in a
`uint8_t`. -/
def bit_postion_in_byte (offset i : Nat) : Nat := ((offset + i) % bits_per_byte) % 256

/-! ## The diagnostic formatter -/

/-- The C++ standard library's `std::bitset<64>(signal).to_string()`: 64 characters, each
`'0'` or `'1'`, the character at index `j` showing bit `63 - j` of the value. -/
def bitset64_to_string (signal : Nat) : List Char :=
  (List.range 64).map (fun j => if signal.testBit (63 - j) then '1' else '0')

/-- The loop of `printBinary64`, lines 27-29, from the index `i` on: the lines it writes to
`std::cout`, each `binary.substr(i, 8)` followed by `std::endl`. -/
def printBinary64_loop (binary : List Char) (i : Nat) : List String :=
  if i < binary.length then
    String.mk ((binary.drop i).take 8) :: printBinary64_loop binary (i + 8)
  else []
termination_by binary.length - i

/-- The function `printBinary64`: the lines written to `std::cout`, in order. -/
def printBinary64 (signal : Nat) : List String :=
  printBinary64_loop (bitset64_to_string signal) 0

/-! ## Shifts and the loop body within range -/

theorem shift_count_eq (offset i : Nat) (h : offset + i < 64) :
    shift_count offset i = ((global_bit (offset + i) : Nat) : Int) := by
  simp only [shift_count, global_bit, bits_per_byte, bitmask_size]
  omega

theorem global_bit_lt (p : Nat) (h : p < 64) : global_bit p < 64 := by
  unfold global_bit
  omega

theorem global_bit_involutive (p : Nat) (h : p < 64) : global_bit (global_bit p) = p := by
  unfold global_bit
  omega

theorem shl64_natCast (u : UndefinedShift) (x s : Nat) (h : s < 64) :
    shl64 u x (s : Int) = (x <<< s) % 2 ^ 64 := by
  unfold shl64
  rw [if_pos (by omega)]
  simp

theorem shr64_natCast (u : UndefinedShift) (x i : Nat) (h : i < 64) :
    shr64 u x (i : Int) = x >>> i := by
  unfold shr64
  rw [if_pos (by omega)]
  simp

theorem shl64_lt (u : UndefinedShift) (x : Nat) (n : Int) : shl64 u x n < 2 ^ 64 := by
  unfold shl64
  split <;> exact Nat.mod_lt _ (by norm_num)

theorem testBit_shl64_bit (u : UndefinedShift) (v i s p : Nat) (hs : s < 64) :
    (shl64 u ((v >>> i) &&& 1) (s : Int)).testBit p = (decide (p = s) && v.testBit i) := by
  rw [shl64_natCast u _ s hs, Nat.and_one_is_mod, Nat.shiftRight_eq_div_pow]
  have hv : v.testBit i = decide (v / 2 ^ i % 2 = 1) := Nat.testBit_to_div_mod
  rcases Nat.mod_two_eq_zero_or_one (v / 2 ^ i) with h0 | h1
  · rw [hv, h0]
    simp
  · have hp : (2 : Nat) ^ s < 2 ^ 64 := Nat.pow_lt_pow_right (by norm_num) hs
    rw [hv, h1, Nat.shiftLeft_eq, Nat.one_mul, Nat.mod_eq_of_lt hp, Nat.testBit_two_pow]
    simp [eq_comm]

theorem testBit_loop_body (u : UndefinedShift) (v offset msg i p : Nat)
    (hi : i < 64) (h : offset + i < 64) :
    (loop_body u v offset msg i).testBit p
      = (msg.testBit p || (decide (p = global_bit (offset + i)) && v.testBit i)) := by
  unfold loop_body
  rw [Nat.testBit_or, shift_count_eq offset i h, shr64_natCast u v i hi,
    testBit_shl64_bit u v i _ p (global_bit_lt _ h)]

/-- Two guarded bits agree when the guards are equivalent and, under the guard, the bit
indices are equal. -/
theorem guard_congr {c d : Prop} [Decidable c] [Decidable d] (f : Nat → Bool) (a b : Nat)
    (hcd : c ↔ d) (hab : c → a = b) : (decide c && f a) = (decide d && f b) := by
  by_cases hc : c
  · have hd : d := hcd.mp hc
    simp [hc, hd, hab hc]
  · have hd : ¬ d := fun h => hc (hcd.mpr h)
    simp [hc, hd]

theorem guard_false {c : Prop} [Decidable c] (b : Bool) (hc : ¬ c) : (decide c && b) = false := by
  simp [hc]

theorem guard_and {c d : Prop} [Decidable c] [Decidable d] (b : Bool) :
    (decide c && (decide d && b)) = (decide (c ∧ d) && b) := by
  simp [Bool.decide_and, Bool.and_assoc]

/-! ## The buffer after the loop, bit by bit -/

theorem testBit_foldl_loop_body (u : UndefinedShift) (v offset msg p : Nat) :
    ∀ n : Nat, offset + n ≤ 64 →
      ((List.range n).foldl (loop_body u v offset) msg).testBit p
        = (msg.testBit p || placed v offset n p) := by
  intro n
  induction n with
  | zero =>
    intro _
    rw [placed, guard_false _ (by omega)]
    simp
  | succ n ih =>
    intro hn
    rw [List.range_succ, List.foldl_append, List.foldl_cons, List.foldl_nil,
      testBit_loop_body u v offset _ n p (by omega) (by omega), ih (by omega)]
    by_cases hp : p = global_bit (offset + n)
    · have hinv : global_bit p = offset + n := by
        rw [hp]; exact global_bit_involutive _ (by omega)
      have hlt : p < 64 := by rw [hp]; exact global_bit_lt _ (by omega)
      have h1 : ¬ (p < 64 ∧ offset ≤ global_bit p ∧ global_bit p < offset + n) := by omega
      have h2 : p < 64 ∧ offset ≤ global_bit p ∧ global_bit p < offset + (n + 1) := by omega
      have hidx : global_bit p - offset = n := by omega
      rw [placed, placed, guard_false _ h1, hidx, decide_eq_true h2, decide_eq_true hp]
      simp
    · have hiff : (p < 64 ∧ offset ≤ global_bit p ∧ global_bit p < offset + n)
          ↔ (p < 64 ∧ offset ≤ global_bit p ∧ global_bit p < offset + (n + 1)) := by
        constructor
        · rintro ⟨h1, h2, h3⟩
          exact ⟨h1, h2, by omega⟩
        · rintro ⟨h1, h2, h3⟩
          refine ⟨h1, h2, ?_⟩
          have hne : global_bit p ≠ offset + n := by
            intro h
            apply hp
            rw [← h, global_bit_involutive p h1]
          omega
      rw [placed, placed, guard_congr _ _ _ hiff (fun _ => rfl)]
      simp [hp]

theorem value_mask_eq_mod (u : UndefinedShift) (signal bit_width : Nat) (h : bit_width ≤ 63) :
    value_mask u signal bit_width = signal % 2 ^ bit_width := by
  have hlt : (2 : Nat) ^ bit_width < 2 ^ 64 := Nat.pow_lt_pow_right (by norm_num) (by omega)
  have hpos : 0 < (2 : Nat) ^ bit_width := Nat.pos_pow_of_pos _ (by norm_num)
  have hsub : 2 ^ bit_width + 2 ^ 64 - 1 = (2 ^ bit_width - 1) + 2 ^ 64 := by omega
  unfold value_mask
  rw [shl64_natCast u 1 bit_width (by omega), Nat.shiftLeft_eq, Nat.one_mul,
    Nat.mod_eq_of_lt hlt, hsub, Nat.add_mod_right, Nat.mod_eq_of_lt (by omega),
    Nat.and_comm, Nat.and_pow_two_sub_one_eq_mod]

theorem placed_mod (signal offset n p : Nat) :
    placed (signal % 2 ^ n) offset n p = placed signal offset n p := by
  unfold placed
  rw [Nat.testBit_mod_two_pow, guard_and]
  exact guard_congr _ _ _ ⟨fun h => h.1, fun h => ⟨h, by omega⟩⟩ (fun _ => rfl)

theorem testBit_MsgEncoding64 (u : UndefinedShift) (msg signal offset bit_width p : Nat)
    (h63 : bit_width ≤ 63) (h : offset + bit_width ≤ 64) :
    (MsgEncoding64 u msg signal offset bit_width).testBit p
      = (msg.testBit p || placed signal offset bit_width p) := by
  unfold MsgEncoding64
  rw [testBit_foldl_loop_body u _ offset msg p bit_width h, value_mask_eq_mod u signal _ h63,
    placed_mod]

theorem placed_at_global_bit (v offset n i : Nat) (hi : i < n) (h : offset + n ≤ 64) :
    placed v offset n (global_bit (offset + i)) = v.testBit i := by
  have hinv : global_bit (global_bit (offset + i)) = offset + i :=
    global_bit_involutive _ (by omega)
  have hlt : global_bit (offset + i) < 64 := global_bit_lt _ (by omega)
  have hc : global_bit (offset + i) < 64 ∧ offset ≤ global_bit (global_bit (offset + i))
      ∧ global_bit (global_bit (offset + i)) < offset + n := by omega
  have hidx : global_bit (global_bit (offset + i)) - offset = i := by omega
  rw [placed, decide_eq_true hc, hidx, Bool.true_and]

theorem placed_eq_false (v offset n p : Nat)
    (hout : ∀ i : Nat, i < n → global_bit (offset + i) ≠ p) : placed v offset n p = false := by
  unfold placed
  apply guard_false
  rintro ⟨h1, h2, h3⟩
  apply hout (global_bit p - offset) (by omega)
  have : offset + (global_bit p - offset) = global_bit p := by omega
  rw [this, global_bit_involutive p h1]

/-! ## The loop on every input: bits are only added -/

theorem testBit_loop_body_of_testBit (u : UndefinedShift) (v offset msg i p : Nat)
    (h : msg.testBit p = true) : (loop_body u v offset msg i).testBit p = true := by
  unfold loop_body
  rw [Nat.testBit_or, h, Bool.true_or]

theorem testBit_foldl_of_testBit (u : UndefinedShift) (v offset p : Nat) (l : List Nat) :
    ∀ msg : Nat, msg.testBit p = true →
      (l.foldl (loop_body u v offset) msg).testBit p = true := by
  induction l with
  | nil => intro msg h; exact h
  | cons i l ih =>
    intro msg h
    rw [List.foldl_cons]
    exact ih _ (testBit_loop_body_of_testBit u v offset msg i p h)

theorem and_eq_self_of_testBit (a b : Nat) (h : ∀ p : Nat, a.testBit p = true → b.testBit p = true) :
    a &&& b = a := by
  apply Nat.eq_of_testBit_eq
  intro p
  rw [Nat.testBit_and]
  cases ha : a.testBit p
  · rfl
  · rw [h p ha]
    rfl

theorem MsgEncoding64_bit_placement_aux (u : UndefinedShift)
    (msg signal offset bit_width i : Nat)
    (h63 : bit_width ≤ 63) (h : offset + bit_width ≤ 64) (hi : i < bit_width) :
    (MsgEncoding64 u msg signal offset bit_width).testBit (global_bit (offset + i))
      = (msg.testBit (global_bit (offset + i)) || signal.testBit i) := by
  rw [testBit_MsgEncoding64 u msg signal offset bit_width _ h63 h,
    placed_at_global_bit signal offset bit_width i hi h]

/-! ## The bytes of a buffer encoded from zero, and the decoder -/

theorem testBit_byte_at (m k j : Nat) :
    (byte_at m k).testBit j = (decide (j < 8) && m.testBit (8 * (7 - k) + j)) := by
  have h256 : (256 : Nat) = 2 ^ 8 := by norm_num
  rw [byte_at, h256, Nat.testBit_mod_two_pow, Nat.testBit_shiftRight]

/-- Bit `j` of byte `k` of a buffer encoded from zero is the message bit numbered
`8 * k + j`: bit `8 * k + j - offset` of the signal when that number lies in
`[offset, offset + bit_width)`. -/
theorem testBit_byte_at_MsgEncoding64 (u : UndefinedShift) (signal offset bit_width k j : Nat)
    (h63 : bit_width ≤ 63) (h : offset + bit_width ≤ 64) (hk : k < 8) :
    (byte_at (MsgEncoding64 u 0 signal offset bit_width) k).testBit j
      = (decide (j < 8 ∧ offset ≤ 8 * k + j ∧ 8 * k + j < offset + bit_width)
          && signal.testBit (8 * k + j - offset)) := by
  rw [testBit_byte_at, testBit_MsgEncoding64 u 0 signal offset bit_width _ h63 h,
    Nat.zero_testBit, Bool.false_or, placed, guard_and]
  apply guard_congr
  · unfold global_bit
    omega
  · unfold global_bit
    omega

theorem testBit_MsgDecoding64 (msg offset j : Nat) :
    ∀ bit_width : Nat, (MsgDecoding64 msg offset bit_width).testBit j
      = (decide (j < bit_width) && msg.testBit (global_bit (offset + j))) := by
  intro n
  induction n with
  | zero => simp [MsgDecoding64]
  | succ n ih =>
    have hone : ∀ t : Nat, Nat.testBit 1 t = decide (0 = t) := fun t =>
      Nat.testBit_two_pow (n := 0) (m := t)
    unfold MsgDecoding64 at ih ⊢
    rw [List.range_succ, List.foldl_append, List.foldl_cons, List.foldl_nil, Nat.testBit_or, ih,
      Nat.testBit_shiftLeft, Nat.testBit_and, Nat.testBit_shiftRight, hone]
    by_cases hj : j = n
    · subst hj
      simp
    · by_cases hlt : j < n
      · have hn : ¬ j ≥ n := by omega
        have hs : j < n + 1 := by omega
        simp [hlt, hn, hs]
      · have h0 : ¬ (0 = j - n) := by omega
        have hs : ¬ j < n + 1 := by omega
        simp [hlt, h0, hs]

/-! ## The truncated signal as a part of the signal, and splitting a placement -/

theorem testBit_value_mask (u : UndefinedShift) (signal bit_width j : Nat)
    (hz : signal.testBit j = false) : (value_mask u signal bit_width).testBit j = false := by
  rw [value_mask, Nat.testBit_and, hz, Bool.and_false]

theorem testBit_eq_false_of_mod_eq_zero (signal n j : Nat) (hz : signal % 2 ^ n = 0)
    (hj : j < n) : signal.testBit j = false := by
  have hbit := Nat.testBit_mod_two_pow signal n j
  rw [hz, Nat.zero_testBit, decide_eq_true hj, Bool.true_and] at hbit
  exact hbit.symm

theorem placed_eq_false_of_low_bits (v offset n p : Nat)
    (hz : ∀ j : Nat, j < n → v.testBit j = false) : placed v offset n p = false := by
  unfold placed
  by_cases hc : p < 64 ∧ offset ≤ global_bit p ∧ global_bit p < offset + n
  · rw [hz _ (by omega), Bool.and_false]
  · exact guard_false _ hc

theorem placed_split (signal offset k m p : Nat) :
    placed signal offset (k + m) p
      = (placed signal offset k p || placed (signal >>> k) (offset + k) m p) := by
  unfold placed
  rw [Nat.testBit_shiftRight]
  by_cases h1 : p < 64 ∧ offset ≤ global_bit p ∧ global_bit p < offset + k
  · have h2 : ¬ (p < 64 ∧ offset + k ≤ global_bit p ∧ global_bit p < offset + k + m) := by
      omega
    have h3 : p < 64 ∧ offset ≤ global_bit p ∧ global_bit p < offset + (k + m) := by omega
    rw [decide_eq_true h1, decide_eq_true h3, guard_false _ h2, Bool.or_false]
  · rw [guard_false _ h1, Bool.false_or]
    apply guard_congr
    · omega
    · intro hc
      omega

/-! ## Bit placement and frame -/

/-- C1 (bit placement): for `1 ≤ bit_width ≤ 63` and `offset + bit_width ≤ 64`, after
`MsgEncoding64` the buffer bit at position `global_bit (offset + i)`, for each `i` below
`bit_width`, is the old bit at that position OR bit `i` of the signal. -/
theorem MsgEncoding64_bit_placement (u : UndefinedShift) (msg signal offset bit_width i : Nat)
    (h1 : 1 ≤ bit_width) (h63 : bit_width ≤ 63) (h : offset + bit_width ≤ 64)
    (hi : i < bit_width) :
    (MsgEncoding64 u msg signal offset bit_width).testBit (global_bit (offset + i))
      = (msg.testBit (global_bit (offset + i)) || signal.testBit i) := by
  have _ := h1
  exact MsgEncoding64_bit_placement_aux u msg signal offset bit_width i h63 h hi

theorem MsgEncoding64_bit_placement_witness :
    (1 ≤ 5 ∧ 5 ≤ 63 ∧ 6 + 5 ≤ 64 ∧ 4 < 5) ∧
      (MsgEncoding64 countMod64 0 0b10111 6 5).testBit (global_bit (6 + 4))
        = ((0 : Nat).testBit (global_bit (6 + 4)) || (0b10111 : Nat).testBit 4) :=
  ⟨by decide, MsgEncoding64_bit_placement countMod64 0 0b10111 6 5 4
    (by decide) (by decide) (by decide) (by decide)⟩

/-- C2 (frame): for `1 ≤ bit_width ≤ 63` and `offset + bit_width ≤ 64`, a bit position `p`
that is not `global_bit (offset + i)` for any `i` below `bit_width` has the same value after
`MsgEncoding64` as before.  This holds for every `p`, the positions from 64 on included, so
nothing is written outside the signal's region or outside the 64 bits of the buffer. -/
theorem MsgEncoding64_frame (u : UndefinedShift) (msg signal offset bit_width p : Nat)
    (h1 : 1 ≤ bit_width) (h63 : bit_width ≤ 63) (h : offset + bit_width ≤ 64)
    (hout : ∀ i : Nat, i < bit_width → global_bit (offset + i) ≠ p) :
    (MsgEncoding64 u msg signal offset bit_width).testBit p = msg.testBit p := by
  have _ := h1
  rw [testBit_MsgEncoding64 u msg signal offset bit_width p h63 h,
    placed_eq_false signal offset bit_width p hout, Bool.or_false]

theorem MsgEncoding64_frame_witness :
    (1 ≤ 4 ∧ 4 ≤ 63 ∧ 60 + 4 ≤ 64 ∧ ∀ i : Nat, i < 4 → global_bit (60 + i) ≠ 3) ∧
      (MsgEncoding64 countMod64 0b1000 0b1001 60 4).testBit 3 = (0b1000 : Nat).testBit 3 :=
  have hout : ∀ i : Nat, i < 4 → global_bit (60 + i) ≠ 3 := by decide
  ⟨⟨by decide, by decide, by decide, hout⟩,
    MsgEncoding64_frame countMod64 0b1000 0b1001 60 4 3 (by decide) (by decide) (by decide) hout⟩

/-! ## Inputs outside the precondition -/

/-- C3 (counterexample): two calls that violate the precondition come back without an
error.  With `bit_width = 0` the loop body never runs and no shift is out of range; the
call returns normally.  With `offset = 61`, `bit_width = 8` and signal `1`, on a target that
reduces shift counts modulo 64, the call returns normally and has set bit 5 of a zero
buffer. -/
theorem MsgEncoding64_call_violation_returns :
    MsgEncoding64_call shiftOut 0 1 0 0 = (Except.ok (), 0) ∧
      MsgEncoding64_call countMod64 0 1 61 8 = (Except.ok (), 32) := by
  have h0 : MsgEncoding64 shiftOut 0 1 0 0 = 0 := by decide
  have h1 : MsgEncoding64 countMod64 0 1 61 8 = 32 := by decide
  exact ⟨by rw [MsgEncoding64_call, h0], by rw [MsgEncoding64_call, h1]⟩

/-- C3 (amended): `MsgEncoding64` validates nothing and has no error path.  On every input,
within the precondition or not, the call returns without an error and every bit that was
set in the buffer is still set; with `bit_width = 0` the buffer is unchanged. -/
theorem MsgEncoding64_call_no_error (u : UndefinedShift) (msg signal offset bit_width : Nat) :
    (MsgEncoding64_call u msg signal offset bit_width).1 = Except.ok () ∧
    msg &&& (MsgEncoding64_call u msg signal offset bit_width).2 = msg ∧
    (bit_width = 0 → (MsgEncoding64_call u msg signal offset bit_width).2 = msg) := by
  refine ⟨rfl, ?_, ?_⟩
  · exact and_eq_self_of_testBit _ _ (fun p hp => testBit_foldl_of_testBit u _ offset p _ msg hp)
  · intro h0
    subst h0
    rfl

/-! ## Truncation, order independence, OR-only semantics -/

/-- C4 (truncation law): for a 64-bit signal, `1 ≤ k ≤ 64` and `offset + k ≤ 64`,
`MsgEncoding64` with `bit_width = k` gives the same buffer for `signal` and for
`signal mod 2 ^ k`; two signals that agree on their low `k` bits give the same buffer. -/
theorem MsgEncoding64_truncation (u : UndefinedShift) (msg signal offset k : Nat)
    (hs : signal < 2 ^ 64) (h1 : 1 ≤ k) (hk : k ≤ 64) (h : offset + k ≤ 64) :
    MsgEncoding64 u msg signal offset k = MsgEncoding64 u msg (signal % 2 ^ k) offset k ∧
    ∀ other : Nat, other < 2 ^ 64 → other % 2 ^ k = signal % 2 ^ k →
      MsgEncoding64 u msg other offset k = MsgEncoding64 u msg signal offset k := by
  have _ := h1
  have _ := h
  by_cases h63 : k ≤ 63
  · constructor
    · unfold MsgEncoding64
      rw [value_mask_eq_mod u signal k h63, value_mask_eq_mod u _ k h63, Nat.mod_mod]
    · intro other _ hmod
      unfold MsgEncoding64
      rw [value_mask_eq_mod u signal k h63, value_mask_eq_mod u other k h63, hmod]
  · have hk64 : k = 64 := by omega
    subst hk64
    constructor
    · rw [Nat.mod_eq_of_lt hs]
    · intro other ho hmod
      rw [Nat.mod_eq_of_lt hs, Nat.mod_eq_of_lt ho] at hmod
      rw [hmod]

theorem MsgEncoding64_truncation_witness :
    ((0xFFF7 : Nat) < 2 ^ 64 ∧ 1 ≤ 4 ∧ 4 ≤ 64 ∧ 6 + 4 ≤ 64) ∧
      (MsgEncoding64 countMod64 0 0xFFF7 6 4 = MsgEncoding64 countMod64 0 (0xFFF7 % 2 ^ 4) 6 4 ∧
      ∀ other : Nat, other < 2 ^ 64 → other % 2 ^ 4 = 0xFFF7 % 2 ^ 4 →
        MsgEncoding64 countMod64 0 other 6 4 = MsgEncoding64 countMod64 0 0xFFF7 6 4) :=
  ⟨by decide, MsgEncoding64_truncation countMod64 0 0xFFF7 6 4
    (by decide) (by decide) (by decide) (by decide)⟩

/-- C5 (order independence): for two signals, each within range (`1 ≤ w`,
`off + w ≤ 64`), whose bit ranges `[offA, offA + wA)` and `[offB, offB + wB)` do not
overlap, encoding A then B gives the same buffer as encoding B then A. -/
theorem MsgEncoding64_order_independent (u : UndefinedShift)
    (msg vA offA wA vB offB wB : Nat)
    (hA1 : 1 ≤ wA) (hA : offA + wA ≤ 64) (hB1 : 1 ≤ wB) (hB : offB + wB ≤ 64)
    (hdisj : offA + wA ≤ offB ∨ offB + wB ≤ offA) :
    MsgEncoding64 u (MsgEncoding64 u msg vA offA wA) vB offB wB
      = MsgEncoding64 u (MsgEncoding64 u msg vB offB wB) vA offA wA := by
  have hA63 : wA ≤ 63 := by omega
  have hB63 : wB ≤ 63 := by omega
  apply Nat.eq_of_testBit_eq
  intro p
  rw [testBit_MsgEncoding64 u _ vB offB wB p hB63 hB,
    testBit_MsgEncoding64 u _ vA offA wA p hA63 hA,
    testBit_MsgEncoding64 u _ vA offA wA p hA63 hA,
    testBit_MsgEncoding64 u _ vB offB wB p hB63 hB]
  exact Bool.or_right_comm _ _ _

theorem MsgEncoding64_order_independent_witness :
    (1 ≤ 4 ∧ 0 + 4 ≤ 64 ∧ 1 ≤ 5 ∧ 6 + 5 ≤ 64 ∧ (0 + 4 ≤ 6 ∨ 6 + 5 ≤ 0)) ∧
      MsgEncoding64 countMod64 (MsgEncoding64 countMod64 0 0b1101 0 4) 0b10111 6 5
        = MsgEncoding64 countMod64 (MsgEncoding64 countMod64 0 0b10111 6 5) 0b1101 0 4 :=
  ⟨by decide, MsgEncoding64_order_independent countMod64 0 0b1101 0 4 0b10111 6 5
    (by decide) (by decide) (by decide) (by decide) (by decide)⟩

/-- C6 (OR-only semantics): for `1 ≤ bit_width ≤ 64` and `offset + bit_width ≤ 64`, every
bit that is 1 in the buffer before `MsgEncoding64` is 1 afterwards: old AND new = old.  In
particular, encoding a 1 at position `offset` and then a 0 at the same position leaves the
bit `global_bit offset` set. -/
theorem MsgEncoding64_or_only (u : UndefinedShift) (msg signal offset bit_width : Nat)
    (h1 : 1 ≤ bit_width) (h64 : bit_width ≤ 64) (h : offset + bit_width ≤ 64) :
    msg &&& MsgEncoding64 u msg signal offset bit_width = msg ∧
    (∀ p : Nat, msg.testBit p = true →
      (MsgEncoding64 u msg signal offset bit_width).testBit p = true) ∧
    (MsgEncoding64 u (MsgEncoding64 u msg 1 offset 1) 0 offset 1).testBit (global_bit offset)
      = true := by
  have _ := h64
  have hmono : ∀ (m s w p : Nat), m.testBit p = true →
      (MsgEncoding64 u m s offset w).testBit p = true :=
    fun m s w p hp => testBit_foldl_of_testBit u _ offset p _ m hp
  refine ⟨and_eq_self_of_testBit _ _ (hmono msg signal bit_width), hmono msg signal bit_width, ?_⟩
  apply hmono
  have hset := MsgEncoding64_bit_placement_aux u msg 1 offset 1 0 (by omega) (by omega) (by omega)
  rw [Nat.add_zero] at hset
  rw [hset]
  simp

theorem MsgEncoding64_or_only_witness :
    (1 ≤ 1 ∧ 1 ≤ 64 ∧ 9 + 1 ≤ 64) ∧
      (0b100 &&& MsgEncoding64 countMod64 0b100 0 9 1 = 0b100 ∧
      (∀ p : Nat, (0b100 : Nat).testBit p = true →
        (MsgEncoding64 countMod64 0b100 0 9 1).testBit p = true) ∧
      (MsgEncoding64 countMod64 (MsgEncoding64 countMod64 0b100 1 9 1) 0 9 1).testBit
        (global_bit 9) = true) :=
  ⟨by decide, MsgEncoding64_or_only countMod64 0b100 0 9 1 (by decide) (by decide) (by decide)⟩

/-! ## The full-width signal -/

/-- C7 (the code at the failing input): with `bit_width = 64` the mask is computed from
`1ULL << 64`, and the buffer depends on what that shift yields.  For signal `1` on a zero
buffer at offset 0, a target that reduces the count modulo 64 leaves the buffer zero (the
mask is `1 - 1 = 0`), while a target that yields 0 for the shift sets bit 56. -/
theorem MsgEncoding64_full_width_depends_on_shift :
    MsgEncoding64 countMod64 0 1 0 64 = 0 ∧ MsgEncoding64 shiftOut 0 1 0 64 = 2 ^ 56 := by
  decide

/-! ## Placement within one byte and across a byte boundary -/

/-- C8 (same-byte placement): for `offset < 64`, `bit_width ≥ 1` and
`offset mod 8 + bit_width ≤ 8`, `MsgEncoding64` yields `msg` OR the truncated signal shifted
left by `56 - 8 * (offset div 8) + offset mod 8`; from a zero buffer, byte `offset div 8`
(byte 0 the most significant) holds the truncated signal shifted left by `offset mod 8` and
every other byte is zero. -/
theorem MsgEncoding64_same_byte (u : UndefinedShift) (msg signal offset bit_width : Nat)
    (hoff : offset < 64) (h1 : 1 ≤ bit_width) (hb : offset % 8 + bit_width ≤ 8) :
    MsgEncoding64 u msg signal offset bit_width
      = msg ||| ((signal % 2 ^ bit_width) <<< (56 - 8 * (offset / 8) + offset % 8)) ∧
    byte_at (MsgEncoding64 u 0 signal offset bit_width) (offset / 8)
      = (signal % 2 ^ bit_width) <<< (offset % 8) ∧
    ∀ k : Nat, k < 8 → k ≠ offset / 8 →
      byte_at (MsgEncoding64 u 0 signal offset bit_width) k = 0 := by
  have _ := h1
  have h63 : bit_width ≤ 63 := by omega
  have h : offset + bit_width ≤ 64 := by omega
  refine ⟨?_, ?_, ?_⟩
  · apply Nat.eq_of_testBit_eq
    intro p
    rw [testBit_MsgEncoding64 u msg signal offset bit_width p h63 h, Nat.testBit_or,
      Nat.testBit_shiftLeft, Nat.testBit_mod_two_pow, guard_and, placed]
    congr 1
    apply guard_congr
    · unfold global_bit
      omega
    · unfold global_bit
      omega
  · apply Nat.eq_of_testBit_eq
    intro j
    rw [testBit_byte_at_MsgEncoding64 u signal offset bit_width _ j h63 h (by omega),
      Nat.testBit_shiftLeft, Nat.testBit_mod_two_pow, guard_and]
    apply guard_congr
    · omega
    · omega
  · intro k hk hne
    apply Nat.eq_of_testBit_eq
    intro j
    rw [testBit_byte_at_MsgEncoding64 u signal offset bit_width k j h63 h hk, Nat.zero_testBit]
    apply guard_false
    omega

theorem MsgEncoding64_same_byte_witness :
    ((0 < 64 ∧ 1 ≤ 4 ∧ 0 % 8 + 4 ≤ 8) ∧
      byte_at (MsgEncoding64 countMod64 0 0b1101 0 4) (0 / 8) = 0b00001101 ∧
      ∀ k : Nat, k < 8 → k ≠ 0 / 8 → byte_at (MsgEncoding64 countMod64 0 0b1101 0 4) k = 0) ∧
    ((60 < 64 ∧ 1 ≤ 4 ∧ 60 % 8 + 4 ≤ 8) ∧
      byte_at (MsgEncoding64 countMod64 0 0b1001 60 4) (60 / 8) = 0b10010000 ∧
      ∀ k : Nat, k < 8 → k ≠ 60 / 8 → byte_at (MsgEncoding64 countMod64 0 0b1001 60 4) k = 0) :=
  ⟨⟨by decide,
      (MsgEncoding64_same_byte countMod64 0 0b1101 0 4 (by decide) (by decide) (by decide)).2⟩,
    ⟨by decide,
      (MsgEncoding64_same_byte countMod64 0 0b1001 60 4 (by decide) (by decide) (by decide)).2⟩⟩

/-- C9 (cross-byte placement): with `r = offset mod 8`, `b = offset div 8`, `b ≤ 6` and
`8 < r + bit_width ≤ 16`, and `v = signal mod 2 ^ bit_width`, `MsgEncoding64` on a zero
buffer yields a buffer whose byte `b` (byte 0 the most significant) is
`(v mod 2 ^ (8 - r)) << r`, whose byte `b + 1` is `v >> (8 - r)`, and whose other bytes are
zero. -/
theorem MsgEncoding64_cross_byte (u : UndefinedShift) (signal offset bit_width : Nat)
    (hb : offset / 8 ≤ 6) (hlo : 8 < offset % 8 + bit_width)
    (hhi : offset % 8 + bit_width ≤ 16) :
    byte_at (MsgEncoding64 u 0 signal offset bit_width) (offset / 8)
      = ((signal % 2 ^ bit_width) % 2 ^ (8 - offset % 8)) <<< (offset % 8) ∧
    byte_at (MsgEncoding64 u 0 signal offset bit_width) (offset / 8 + 1)
      = (signal % 2 ^ bit_width) >>> (8 - offset % 8) ∧
    ∀ k : Nat, k < 8 → k ≠ offset / 8 → k ≠ offset / 8 + 1 →
      byte_at (MsgEncoding64 u 0 signal offset bit_width) k = 0 := by
  have h63 : bit_width ≤ 63 := by omega
  have h : offset + bit_width ≤ 64 := by omega
  refine ⟨?_, ?_, ?_⟩
  · apply Nat.eq_of_testBit_eq
    intro j
    rw [testBit_byte_at_MsgEncoding64 u signal offset bit_width _ j h63 h (by omega),
      Nat.testBit_shiftLeft, Nat.testBit_mod_two_pow, Nat.testBit_mod_two_pow, guard_and,
      guard_and]
    apply guard_congr
    · omega
    · omega
  · apply Nat.eq_of_testBit_eq
    intro j
    rw [testBit_byte_at_MsgEncoding64 u signal offset bit_width _ j h63 h (by omega),
      Nat.testBit_shiftRight, Nat.testBit_mod_two_pow]
    apply guard_congr
    · omega
    · omega
  · intro k hk hne hne1
    apply Nat.eq_of_testBit_eq
    intro j
    rw [testBit_byte_at_MsgEncoding64 u signal offset bit_width k j h63 h hk, Nat.zero_testBit]
    apply guard_false
    omega

theorem MsgEncoding64_cross_byte_witness :
    (6 / 8 ≤ 6 ∧ 8 < 6 % 8 + 5 ∧ 6 % 8 + 5 ≤ 16) ∧
      byte_at (MsgEncoding64 countMod64 0 0b10111 6 5) (6 / 8) = 0b11000000 ∧
      byte_at (MsgEncoding64 countMod64 0 0b10111 6 5) (6 / 8 + 1) = 0b00000101 ∧
      ∀ k : Nat, k < 8 → k ≠ 6 / 8 → k ≠ 6 / 8 + 1 →
        byte_at (MsgEncoding64 countMod64 0 0b10111 6 5) k = 0 :=
  ⟨by decide,
    MsgEncoding64_cross_byte countMod64 0b10111 6 5 (by decide) (by decide) (by decide)⟩

/-! ## Round trip -/

/-- C10 (round trip): for `1 ≤ bit_width ≤ 63` and `offset + bit_width ≤ 64`, decoding at
`(offset, bit_width)` the buffer that `MsgEncoding64` produces from a zero buffer returns
`signal mod 2 ^ bit_width`; hence two signals that encode to the same buffer have the same
truncated value. -/
theorem MsgEncoding64_round_trip (u : UndefinedShift) (signal offset bit_width : Nat)
    (h1 : 1 ≤ bit_width) (h63 : bit_width ≤ 63) (h : offset + bit_width ≤ 64) :
    MsgDecoding64 (MsgEncoding64 u 0 signal offset bit_width) offset bit_width
      = signal % 2 ^ bit_width ∧
    ∀ other : Nat,
      MsgEncoding64 u 0 other offset bit_width = MsgEncoding64 u 0 signal offset bit_width →
        other % 2 ^ bit_width = signal % 2 ^ bit_width := by
  have _ := h1
  have hdec : ∀ s : Nat,
      MsgDecoding64 (MsgEncoding64 u 0 s offset bit_width) offset bit_width
        = s % 2 ^ bit_width := by
    intro s
    apply Nat.eq_of_testBit_eq
    intro j
    rw [testBit_MsgDecoding64, Nat.testBit_mod_two_pow]
    by_cases hj : j < bit_width
    · rw [MsgEncoding64_bit_placement_aux u 0 s offset bit_width j h63 h hj, Nat.zero_testBit,
        Bool.false_or]
    · simp [hj]
  refine ⟨hdec signal, ?_⟩
  intro other heq
  rw [← hdec other, ← hdec signal, heq]

theorem MsgEncoding64_round_trip_witness :
    (1 ≤ 5 ∧ 5 ≤ 63 ∧ 6 + 5 ≤ 64) ∧
      (MsgDecoding64 (MsgEncoding64 countMod64 0 0b110111 6 5) 6 5 = 0b110111 % 2 ^ 5 ∧
      ∀ other : Nat,
        MsgEncoding64 countMod64 0 other 6 5 = MsgEncoding64 countMod64 0 0b110111 6 5 →
          other % 2 ^ 5 = 0b110111 % 2 ^ 5) :=
  ⟨by decide,
    MsgEncoding64_round_trip countMod64 0b110111 6 5 (by decide) (by decide) (by decide)⟩

/-! ## In-bounds addressing -/

/-- C11 (in-bounds addressing): for `bit_width ≥ 1` and `offset + bit_width ≤ 64`, the last
placement `offset = 64 - bit_width` included, every pass `i < bit_width` of the loop has
`byte_index ≤ 7` and a shift count `64 - (byte_index + 1) * 8 + bit_postion_in_byte` in
`[0, 63]`: no shift of the loop is by a negative amount or past the 64 bits, and the shift
is the defined one on every target. -/
theorem MsgEncoding64_in_bounds (offset bit_width i : Nat)
    (h1 : 1 ≤ bit_width) (h : offset + bit_width ≤ 64) (hi : i < bit_width) :
    byte_index offset i ≤ 7 ∧
    shift_count offset i
      = 64 - ((byte_index offset i : Int) + 1) * 8 + (bit_postion_in_byte offset i : Int) ∧
    0 ≤ shift_count offset i ∧ shift_count offset i ≤ 63 ∧
    ∀ (u : UndefinedShift) (x : Nat),
      shl64 u x (shift_count offset i) = (x <<< global_bit (offset + i)) % 2 ^ 64 := by
  have _ := h1
  have hlt : offset + i < 64 := by omega
  have hg : global_bit (offset + i) < 64 := global_bit_lt _ hlt
  refine ⟨?_, rfl, ?_, ?_, ?_⟩
  · simp only [byte_index, bits_per_byte]
    omega
  · rw [shift_count_eq offset i hlt]
    omega
  · rw [shift_count_eq offset i hlt]
    omega
  · intro u x
    rw [shift_count_eq offset i hlt, shl64_natCast u x _ hg]

theorem MsgEncoding64_in_bounds_witness :
    (1 ≤ 4 ∧ 60 + 4 ≤ 64 ∧ 3 < 4) ∧
      (byte_index 60 3 ≤ 7 ∧
      shift_count 60 3 = 64 - ((byte_index 60 3 : Int) + 1) * 8 + (bit_postion_in_byte 60 3 : Int) ∧
      0 ≤ shift_count 60 3 ∧ shift_count 60 3 ≤ 63 ∧
      ∀ (u : UndefinedShift) (x : Nat),
        shl64 u x (shift_count 60 3) = (x <<< global_bit (60 + 3)) % 2 ^ 64) :=
  ⟨by decide, MsgEncoding64_in_bounds 60 4 3 (by decide) (by decide) (by decide)⟩

/-! ## Zero value, split, address map, repeated call -/

/-- C12 (zero value is a no-op): for `1 ≤ bit_width ≤ 64` and `offset + bit_width ≤ 64`, a
signal whose low `bit_width` bits are all 0 leaves the buffer equal to `msg`. -/
theorem MsgEncoding64_zero_value (u : UndefinedShift) (msg signal offset bit_width : Nat)
    (h1 : 1 ≤ bit_width) (h64 : bit_width ≤ 64) (h : offset + bit_width ≤ 64)
    (hz : signal % 2 ^ bit_width = 0) :
    MsgEncoding64 u msg signal offset bit_width = msg := by
  have _ := h1
  have _ := h64
  apply Nat.eq_of_testBit_eq
  intro p
  unfold MsgEncoding64
  rw [testBit_foldl_loop_body u _ offset msg p bit_width h,
    placed_eq_false_of_low_bits _ offset bit_width p
      (fun j hj => testBit_value_mask u signal bit_width j
        (testBit_eq_false_of_mod_eq_zero signal bit_width j hz hj)),
    Bool.or_false]

theorem MsgEncoding64_zero_value_witness :
    (1 ≤ 1 ∧ 1 ≤ 64 ∧ 0 + 1 ≤ 64 ∧ 0 % 2 ^ 1 = 0) ∧ MsgEncoding64 countMod64 0 0 0 1 = 0 :=
  ⟨by decide,
    MsgEncoding64_zero_value countMod64 0 0 0 1 (by decide) (by decide) (by decide) (by decide)⟩

/-- C14 (split law): for `k ≥ 1`, `m ≥ 1`, `k + m ≤ 63` and `offset + k + m ≤ 64`, encoding
the signal with `bit_width = k + m` at `offset` gives the same buffer as encoding it with
`bit_width = k` at `offset` and then encoding `signal >> k` with `bit_width = m` at
`offset + k`. -/
theorem MsgEncoding64_split (u : UndefinedShift) (msg signal offset k m : Nat)
    (hk : 1 ≤ k) (hm : 1 ≤ m) (hkm : k + m ≤ 63) (h : offset + k + m ≤ 64) :
    MsgEncoding64 u msg signal offset (k + m)
      = MsgEncoding64 u (MsgEncoding64 u msg signal offset k) (signal >>> k) (offset + k) m := by
  have _ := hk
  have _ := hm
  apply Nat.eq_of_testBit_eq
  intro p
  rw [testBit_MsgEncoding64 u msg signal offset (k + m) p hkm (by omega),
    testBit_MsgEncoding64 u _ (signal >>> k) (offset + k) m p (by omega) (by omega),
    testBit_MsgEncoding64 u msg signal offset k p (by omega) (by omega),
    placed_split, Bool.or_assoc]

theorem MsgEncoding64_split_witness :
    (1 ≤ 2 ∧ 1 ≤ 3 ∧ 2 + 3 ≤ 63 ∧ 6 + 2 + 3 ≤ 64) ∧
      MsgEncoding64 countMod64 0 0b10111 6 (2 + 3)
        = MsgEncoding64 countMod64 (MsgEncoding64 countMod64 0 0b10111 6 2)
            (0b10111 >>> 2) (6 + 2) 3 :=
  ⟨by decide, MsgEncoding64_split countMod64 0 0b10111 6 2 3
    (by decide) (by decide) (by decide) (by decide)⟩

/-- C15 (the address map is a permutation): the shift count that `MsgEncoding64` computes
for message bit `offset + i < 64` is `global_bit (offset + i)`; `global_bit` maps `[0, 64)`
into `[0, 64)` and is an involution there, hence injective; so message bits with different
numbers, of one signal or of two signals with disjoint ranges, get different shift
counts. -/
theorem global_bit_permutation :
    (∀ offset i : Nat, offset + i < 64 →
      shift_count offset i = ((global_bit (offset + i) : Nat) : Int)) ∧
    (∀ p : Nat, p < 64 → global_bit p < 64) ∧
    (∀ p : Nat, p < 64 → global_bit (global_bit p) = p) ∧
    (∀ p q : Nat, p < 64 → q < 64 → global_bit p = global_bit q → p = q) ∧
    (∀ offA iA offB iB : Nat, offA + iA < 64 → offB + iB < 64 → offA + iA ≠ offB + iB →
      shift_count offA iA ≠ shift_count offB iB) := by
  have hinj : ∀ p q : Nat, p < 64 → q < 64 → global_bit p = global_bit q → p = q := by
    intro p q hp hq hpq
    rw [← global_bit_involutive p hp, ← global_bit_involutive q hq, hpq]
  refine ⟨shift_count_eq, global_bit_lt, global_bit_involutive, hinj, ?_⟩
  intro offA iA offB iB hA hB hne heq
  rw [shift_count_eq offA iA hA, shift_count_eq offB iB hB] at heq
  exact hne (hinj _ _ hA hB (Int.ofNat.inj heq))

/-- Within `bit_width ≤ 63` a repeated call changes nothing, whatever the out-of-range
shifts would yield in each of the calls: no shift of these calls is out of range. -/
theorem MsgEncoding64_repeated_call_in_range (u₁ u₂ u₃ : UndefinedShift)
    (msg signal offset bit_width : Nat) (h63 : bit_width ≤ 63) (h : offset + bit_width ≤ 64) :
    MsgEncoding64 u₂ (MsgEncoding64 u₁ msg signal offset bit_width) signal offset bit_width
      = MsgEncoding64 u₃ msg signal offset bit_width := by
  apply Nat.eq_of_testBit_eq
  intro p
  rw [testBit_MsgEncoding64 u₂ _ signal offset bit_width p h63 h,
    testBit_MsgEncoding64 u₁ msg signal offset bit_width p h63 h,
    testBit_MsgEncoding64 u₃ msg signal offset bit_width p h63 h, Bool.or_assoc, Bool.or_self]

/-- C16 (the code at the failing input): with `bit_width = 64` each call computes its mask
from `1ULL << 64`, and the source fixes no value for that shift, in one call or from one
call to the next.  For signal `1` at offset 0 on a zero buffer: a first call in which the
shift yields 1 (count reduced modulo 64) leaves the buffer zero, and a second call in which
it yields 0 then sets bit 56, so that calling twice does not give what calling once gave. -/
theorem MsgEncoding64_repeated_call_full_width :
    MsgEncoding64 countMod64 0 1 0 64 = 0 ∧
    MsgEncoding64 shiftOut (MsgEncoding64 countMod64 0 1 0 64) 1 0 64 = 2 ^ 56 ∧
    MsgEncoding64 shiftOut (MsgEncoding64 countMod64 0 1 0 64) 1 0 64
      ≠ MsgEncoding64 countMod64 0 1 0 64 := by
  decide

/-! ## The diagnostic formatter -/

theorem printBinary64_loop_eq (binary : List Char) (h : binary.length = 64) :
    printBinary64_loop binary 0
      = (List.range 8).map (fun k => String.mk ((binary.drop (8 * k)).take 8)) := by
  rw [printBinary64_loop, if_pos (by omega), printBinary64_loop, if_pos (by omega),
    printBinary64_loop, if_pos (by omega), printBinary64_loop, if_pos (by omega),
    printBinary64_loop, if_pos (by omega), printBinary64_loop, if_pos (by omega),
    printBinary64_loop, if_pos (by omega), printBinary64_loop, if_pos (by omega),
    printBinary64_loop, if_neg (by omega)]
  rfl

theorem length_bitset64_to_string (signal : Nat) : (bitset64_to_string signal).length = 64 := by
  simp [bitset64_to_string]

theorem bitset64_to_string_char (signal i : Nat) (hi : i < 64) :
    (bitset64_to_string signal)[i]? = some (if signal.testBit (63 - i) then '1' else '0') := by
  simp [bitset64_to_string, List.getElem?_map, List.getElem?_range hi]

/-- The three demonstration calls of `main` print what the comments of lines 42-52, 62-72
and 82-92 show. -/
theorem printBinary64_main :
    printBinary64 (MsgEncoding64 countMod64 0 0b1101 0 4)
      = ["00001101", "00000000", "00000000", "00000000",
         "00000000", "00000000", "00000000", "00000000"] ∧
    printBinary64 (MsgEncoding64 countMod64 0 0b1001 60 4)
      = ["00000000", "00000000", "00000000", "00000000",
         "00000000", "00000000", "00000000", "10010000"] ∧
    printBinary64 (MsgEncoding64 countMod64 0 0b10111 6 5)
      = ["11000000", "00000101", "00000000", "00000000",
         "00000000", "00000000", "00000000", "00000000"] := by
  rw [printBinary64, printBinary64, printBinary64,
    printBinary64_loop_eq _ (length_bitset64_to_string _),
    printBinary64_loop_eq _ (length_bitset64_to_string _),
    printBinary64_loop_eq _ (length_bitset64_to_string _)]
  decide

/-- C13 (diagnostic formatter): for every value, `printBinary64` emits exactly 8 lines, each
of exactly 8 characters, each character `'0'` or `'1'`; character `j` of line `k` is `'1'`
exactly when bit `63 - 8 * k - j` of the value is set, that is when bit `7 - j` of byte `k`
(byte 0 the most significant) is set: line `k` is byte `k`, most significant bit first. -/
theorem printBinary64_lines (value : Nat) :
    (printBinary64 value).length = 8 ∧
    ∀ k : Nat, k < 8 → ∃ line : String,
      (printBinary64 value)[k]? = some line ∧ line.length = 8 ∧
      ∀ j : Nat, j < 8 → ∃ c : Char,
        line.data[j]? = some c ∧ (c = '0' ∨ c = '1') ∧
        (c = '1' ↔ value.testBit (63 - 8 * k - j) = true) ∧
        (c = '1' ↔ (byte_at value k).testBit (7 - j) = true) := by
  have hlen := length_bitset64_to_string value
  rw [printBinary64, printBinary64_loop_eq _ hlen]
  refine ⟨by simp, ?_⟩
  intro k hk
  refine ⟨String.mk (((bitset64_to_string value).drop (8 * k)).take 8), ?_, ?_, ?_⟩
  · rw [List.getElem?_map, List.getElem?_range hk]
    rfl
  · rw [String.length_mk, List.length_take, List.length_drop, hlen]
    omega
  · intro j hj
    have hidx : 63 - 8 * k - j = 63 - (8 * k + j) := by omega
    have hbyte : (byte_at value k).testBit (7 - j) = value.testBit (63 - (8 * k + j)) := by
      have hpos : 8 * (7 - k) + (7 - j) = 63 - (8 * k + j) := by omega
      rw [testBit_byte_at, hpos, decide_eq_true (by omega : 7 - j < 8), Bool.true_and]
    refine ⟨if value.testBit (63 - (8 * k + j)) then '1' else '0', ?_, ?_, ?_, ?_⟩
    · show (((bitset64_to_string value).drop (8 * k)).take 8)[j]? = _
      rw [List.getElem?_take_of_lt hj, List.getElem?_drop,
        bitset64_to_string_char value _ (by omega)]
    · cases value.testBit (63 - (8 * k + j)) <;> simp
    · rw [hidx]
      cases value.testBit (63 - (8 * k + j)) <;> simp
    · rw [hbyte]
      cases value.testBit (63 - (8 * k + j)) <;> simp

end CanMsgCoding
